import Mathlib

set_option linter.unusedVariables false

/-! Shallow embedding of the github-email lookup library (src/index.ts,
src/types.ts).

The source is a set of async functions issuing HTTP GET requests.  The
network is modelled as a `World`: one (status, body) response per
endpoint, with JSON bodies modelled structurally and every field that a
response may lack wrapped in `Option`.  Each embedded function returns
its result together with the list of API calls it issued, so that claims
of the form "no network request is made" are expressible.  JavaScript
truthiness on strings (`undefined`, `null` and `""` are falsy) is
modelled explicitly by `jsTruthy`.  Commit dates are only ever used
through `new Date(s)` comparisons, so the `date` field is modelled as
the parsed timestamp `Option Int`, with `none` standing for a missing or
unparseable date (an invalid JS `Date`, whose `>` comparisons are all
false, mirroring NaN). -/

/-- A commit author/committer object from the GitHub commits JSON; every
field may be missing. -/
structure GitIdent where
  name : Option String
  email : Option String
  date : Option Int
  deriving DecidableEq

/-- The `commit` sub-object of one entry of the commits response. -/
structure CommitInner where
  author : Option GitIdent
  committer : Option GitIdent
  deriving DecidableEq

/-- One entry of the commits response array. -/
structure CommitJson where
  commit : Option CommitInner
  deriving DecidableEq

/-- Response of the profile-by-id endpoint `GET /user/:id`. -/
structure UserByIdResp where
  status : Nat
  login : Option String

/-- Response shape shared by `GET /users/:username` and the npm registry
user endpoint: a status and an optional `email` field. -/
structure EmailResp where
  status : Nat
  email : Option String

/-- Response of `GET /users/:username/events`: the code reads the raw
text of the body, so it is modelled as a character list. -/
structure EventsResp where
  status : Nat
  text : List Char

/-- One entry of the owned-repositories response array. -/
structure RepoEntry where
  name : Option String

/-- Response of `GET /users/:username/repos?type=owner&sort=pushed`:
`body = none` models a non-array JSON body. -/
structure ReposResp where
  status : Nat
  body : Option (List RepoEntry)

/-- Response of `GET /repos/:username/:repository/commits`:
`body = none` models a non-array JSON body. -/
structure CommitsResp where
  status : Nat
  body : Option (List CommitJson)

/-- The network, as seen by one run: the response each endpoint would
give.  The repos endpoint is understood to serve the user's owned
repositories sorted by most-recently-pushed (the query string fixes
`type=owner&sort=pushed`); that ordering is the server's contract and is
not re-modelled here. -/
structure World where
  userById : Int → UserByIdResp
  userByName : String → EmailResp
  npmUser : String → EmailResp
  events : String → EventsResp
  repos : String → ReposResp
  commits : String → String → CommitsResp

/-- The `GitHubEmailOpts` union from src/types.ts: exactly one of
`username` / `id` is present, modelled as a sum. -/
inductive UserRef where
  | byUsername (username : String)
  | byId (id : Int)
  deriving DecidableEq

/-- Options record: the user reference plus the optional `token` and
`repository` fields. -/
structure GitHubEmailOpts where
  user : UserRef
  token : Option String
  repository : Option String
  deriving DecidableEq

/-- One outbound HTTP request, tagged by endpoint and arguments. -/
inductive ApiCall where
  | userById (id : Int)
  | userByName (username : String)
  | npmUser (username : String)
  | events (username : String)
  | repos (username : String)
  | commits (username repo : String)
  deriving DecidableEq

/-- One entry of `RecentCommitsResult`.  The declared TypeScript type
has `email : string`, but the runtime value is forwarded unchecked from
the response, so the embedding keeps it optional. -/
structure NameEmail where
  name : String
  email : Option String
  deriving DecidableEq

/-- A value of the insertion-ordered `Map` built while aggregating
commits: `{ name, email, date }`. -/
structure IdentRec where
  name : String
  email : Option String
  date : Option Int
  deriving DecidableEq

/-- The overall `GitHubEmailResult` record. -/
structure GitHubEmailResult where
  github : Option String
  npm : Option String
  recentCommits : List NameEmail
  recentActivity : List (List Char)
  deriving DecidableEq

/-- The thrown error of `githubEmail` when no username can be resolved
(the spec's `UserNotFoundError`). -/
inductive GithubEmailError where
  | userNotFound
  deriving DecidableEq

/-- JS truthiness of an optional string: `undefined`/`null`/`""` are
falsy, every other string is truthy. -/
def jsTruthy : Option String → Bool
  | none => false
  | some s => decide (s ≠ "")

/-- The JS expression `x || null` on an optional string field. -/
def jsOrNull : Option String → Option String
  | none => none
  | some s => if s = "" then none else some s

/-- Embeds `getUsername`: a request carrying a username returns it with
no network call; otherwise the profile-by-id endpoint is queried, `404`
yields `null` and any other response yields its `login` field. -/
def getUsername (opts : GitHubEmailOpts) (w : World) :
    Option String × List ApiCall :=
  match opts.user with
  | .byUsername u => (some u, [])
  | .byId i =>
    let r := w.userById i
    if r.status = 404 then (none, [ApiCall.userById i])
    else (r.login, [ApiCall.userById i])

/-- Embeds `getGitHubEmail`: with a falsy token it short-circuits to
`null` with no request; otherwise `404` yields `null` and a success
yields `json.email || null`. -/
def getGitHubEmail (username : String) (opts : GitHubEmailOpts) (w : World) :
    Option String × List ApiCall :=
  if jsTruthy opts.token = false then (none, [])
  else
    let r := w.userByName username
    if r.status = 404 then (none, [ApiCall.userByName username])
    else (jsOrNull r.email, [ApiCall.userByName username])

/-- Embeds `getNpmEmail`: `404` yields `null`, a success yields
`json.email || null`. -/
def getNpmEmail (username : String) (w : World) :
    Option String × List ApiCall :=
  let r := w.npmUser username
  if r.status = 404 then (none, [ApiCall.npmUser username])
  else (jsOrNull r.email, [ApiCall.npmUser username])

/-- The literal characters of the scanned key pattern, the regex source
up to the capture group. -/
def emailKeyPat : List Char :=
  ['"', 'e', 'm', 'a', 'i', 'l', '"', ':', '"']

/-- Capture of the regex tail after the opening quote of the value:
consume characters up to the next double quote (the greedy
no-double-quote class followed by a forced closing quote), returning the
captured characters and the remainder after the closing quote; `none`
when no closing quote exists. -/
def capUntilQuote : List Char → Option (List Char × List Char)
  | [] => none
  | c :: rest =>
    if c = '"' then some ([], rest)
    else (capUntilQuote rest).map (fun p => (c :: p.1, p.2))

/-- Attempt of the whole regex at the head of `s`: the literal pattern
followed by a captured value and its closing quote. -/
def tryMatchAt (s : List Char) : Option (List Char × List Char) :=
  if s.take 9 = emailKeyPat then capUntilQuote (s.drop 9) else none

theorem capUntilQuote_eq {l cap rem : List Char}
    (h : capUntilQuote l = some (cap, rem)) :
    l = cap ++ '"' :: rem := by
  induction l generalizing cap rem with
  | nil => simp [capUntilQuote] at h
  | cons c rest ih =>
    by_cases hc : c = '"'
    · simp [capUntilQuote, hc] at h
      simp [hc, h.1, h.2]
    · rcases hrec : capUntilQuote rest with _ | ⟨p1, p2⟩
      · simp [capUntilQuote, hc, hrec] at h
      · simp [capUntilQuote, hc, hrec] at h
        rw [← h.1, ← h.2]
        simp [ih hrec]

theorem tryMatchAt_eq {s cap rem : List Char}
    (h : tryMatchAt s = some (cap, rem)) :
    s = emailKeyPat ++ cap ++ '"' :: rem := by
  unfold tryMatchAt at h
  by_cases hp : s.take 9 = emailKeyPat
  · simp [hp] at h
    have hd := capUntilQuote_eq h
    have := List.take_append_drop 9 s
    rw [hp, hd] at this
    simp [this.symm]
  · simp [hp] at h

theorem tryMatchAt_len {s cap rem : List Char}
    (h : tryMatchAt s = some (cap, rem)) :
    s.length = cap.length + rem.length + 10 := by
  have := tryMatchAt_eq h
  subst this
  simp [emailKeyPat]
  omega

/-- All matches of the email regex over the raw text, in order of
occurrence, with the matches non-overlapping (the scan resumes after
each match): the declarative reading of the extraction contract. -/
def allEmailMatches : List Char → List (List Char)
  | [] => []
  | c :: rest =>
    match h : tryMatchAt (c :: rest) with
    | some p => p.1 :: allEmailMatches p.2
    | none => allEmailMatches rest
  termination_by s => s.length
  decreasing_by
  · have := tryMatchAt_len h
    simp at this ⊢
    omega
  · simp

theorem allEmailMatches_cons_some {c : Char} {rest cap rem : List Char}
    (h : tryMatchAt (c :: rest) = some (cap, rem)) :
    allEmailMatches (c :: rest) = cap :: allEmailMatches rem := by
  rw [allEmailMatches]
  split
  · rename_i p hp
    rw [h] at hp
    cases hp
    rfl
  · rename_i hp
    rw [h] at hp
    cases hp

theorem allEmailMatches_cons_none {c : Char} {rest : List Char}
    (h : tryMatchAt (c :: rest) = none) :
    allEmailMatches (c :: rest) = allEmailMatches rest := by
  rw [allEmailMatches]
  split
  · rename_i p hp
    rw [h] at hp
    cases hp
  · rfl

/-- Search for the first match at or after the start of `l`: on success,
return the capture, the remainder after the match and the offset in `l`
just past the match (the value `lastIndex` is advanced to, relative to
`l`). -/
def execSearch : List Char → Option (List Char × List Char × Nat)
  | [] => none
  | c :: rest =>
    match tryMatchAt (c :: rest) with
    | some p => some (p.1, p.2, p.1.length + 10)
    | none => (execSearch rest).map (fun q => (q.1, q.2.1, q.2.2 + 1))

/-- One call of `emailRegExp.exec(json)` with `lastIndex = j`: search
from offset `j`; on success the new `lastIndex` is the absolute offset
just past the match (on failure the engine resets `lastIndex` to `0`,
which the loop below observes as termination). -/
def execFrom (s : List Char) (j : Nat) :
    Option (List Char × List Char × Nat) :=
  (execSearch (s.drop j)).map (fun q => (q.1, q.2.1, j + q.2.2))


theorem allEmailMatches_nil : allEmailMatches [] = [] := by
  rw [allEmailMatches]

theorem execSearch_spec {l cap rem : List Char} {e : Nat}
    (h : execSearch l = some (cap, rem, e)) :
    l.drop e = rem ∧ 0 < e ∧ e ≤ l.length ∧
      allEmailMatches l = cap :: allEmailMatches rem := by
  induction l generalizing cap rem e with
  | nil => simp [execSearch] at h
  | cons c rest ih =>
    rcases hm : tryMatchAt (c :: rest) with _ | ⟨mcap, mrem⟩
    · rcases hrec : execSearch rest with _ | ⟨⟨q1, q2, q3⟩⟩
      · simp [execSearch, hm, hrec] at h
      · have h' : (some (q1, q2, q3 + 1) :
            Option (List Char × List Char × Nat)) = some (cap, rem, e) := by
          rw [← h]
          simp [execSearch, hm, hrec]
        injection h' with ha
        injection ha with ha1 hb
        injection hb with hb1 hb2
        subst ha1
        subst hb1
        subst hb2
        obtain ⟨d1, d2, d3, d4⟩ := ih hrec
        refine ⟨?_, by omega, ?_, ?_⟩
        · rw [List.drop_succ_cons]
          exact d1
        · simp only [List.length_cons]
          omega
        · rw [allEmailMatches_cons_none hm, d4]
    · have h' : (some (mcap, mrem, mcap.length + 10) :
          Option (List Char × List Char × Nat)) = some (cap, rem, e) := by
        rw [← h]
        simp [execSearch, hm]
      injection h' with ha
      injection ha with ha1 hb
      injection hb with hb1 hb2
      subst ha1
      subst hb1
      subst hb2
      have hs := tryMatchAt_eq hm
      have hlen := tryMatchAt_len hm
      have hdrop : (c :: rest).drop (mcap.length + 10) = mrem := by
        have harr : c :: rest = (emailKeyPat ++ mcap ++ ['"']) ++ mrem := by
          rw [hs]
          simp
        have hlp : (emailKeyPat ++ mcap ++ ['"']).length = mcap.length + 10 := by
          simp [emailKeyPat]
        rw [harr, ← hlp, List.drop_left]
      exact ⟨hdrop, by omega, by omega, allEmailMatches_cons_some hm⟩

theorem execSearch_none {l : List Char} (h : execSearch l = none) :
    allEmailMatches l = [] := by
  induction l with
  | nil => exact allEmailMatches_nil
  | cons c rest ih =>
    rcases hm : tryMatchAt (c :: rest) with _ | ⟨mcap, mrem⟩
    · simp [execSearch, hm] at h
      rw [allEmailMatches_cons_none hm]
      exact ih h
    · simp [execSearch, hm] at h

/-- The `while (emailRegExp.lastIndex !== 0)` loop body, fuelled: each
iteration first tests the `lastIndex !== 0` condition, then calls
`exec`; a failed `exec` resets `lastIndex` to `0`, so the loop stops
right after a failure.  The fuel is a modelling device only:
`recentActivityScan_eq` shows the fuel supplied below never runs out. -/
def scanLoopAux : Nat → List Char → Nat → List (List Char)
  | 0, _, _ => []
  | fuel + 1, s, j =>
    if j = 0 then []
    else
      match execFrom s j with
      | none => []
      | some (cap, _, k) => cap :: scanLoopAux fuel s k

/-- Embeds the body-scanning part of `getRecentActivityEmails`: one
initial `exec` from `lastIndex = 0`, whose match (if any) is pushed,
followed by the `while (lastIndex !== 0)` loop. -/
def recentActivityScan (s : List Char) : List (List Char) :=
  match execFrom s 0 with
  | none => []
  | some (cap, _, k) => cap :: scanLoopAux s.length s k

/-- Embeds `getRecentActivityEmails`: fetch the events feed, return the
empty list on `404`, otherwise scan the raw body text. -/
def getRecentActivityEmails (username : String) (opts : GitHubEmailOpts)
    (w : World) : List (List Char) × List ApiCall :=
  let r := w.events username
  if r.status = 404 then ([], [ApiCall.events username])
  else (recentActivityScan r.text, [ApiCall.events username])

theorem scanLoopAux_eq (fuel : Nat) : ∀ (s : List Char) (j : Nat),
    j ≠ 0 → s.length ≤ j + fuel →
    scanLoopAux fuel s j = allEmailMatches (s.drop j) := by
  induction fuel with
  | zero =>
    intro s j hj hle
    have hnil : s.drop j = [] := by
      apply List.drop_eq_nil_of_le
      omega
    rw [hnil, allEmailMatches_nil]
    rfl
  | succ fuel ih =>
    intro s j hj hle
    rcases he : execSearch (s.drop j) with _ | ⟨⟨q1, q2, q3⟩⟩
    · have hx : execFrom s j = none := by simp [execFrom, he]
      simp [scanLoopAux, hj, hx, execSearch_none he]
    · have hx : execFrom s j = some (q1, q2, j + q3) := by
        simp [execFrom, he]
      obtain ⟨d1, d2, d3, d4⟩ := execSearch_spec he
      have hdrop : s.drop (j + q3) = q2 := by
        have hdd := List.drop_drop q3 j s
        rw [← hdd]
        exact d1
      have hlend := List.length_drop j s
      have ihk := ih s (j + q3) (by omega) (by omega)
      calc scanLoopAux (fuel + 1) s j
          = q1 :: scanLoopAux fuel s (j + q3) := by
            simp [scanLoopAux, hj, hx]
        _ = q1 :: allEmailMatches (s.drop (j + q3)) := by rw [ihk]
        _ = q1 :: allEmailMatches q2 := by rw [hdrop]
        _ = allEmailMatches (s.drop j) := by rw [d4]

theorem recentActivityScan_eq (s : List Char) :
    recentActivityScan s = allEmailMatches s := by
  rcases he : execSearch s with _ | ⟨⟨q1, q2, q3⟩⟩
  · have hx : execFrom s 0 = none := by simp [execFrom, he]
    simp [recentActivityScan, hx, execSearch_none he]
  · obtain ⟨d1, d2, d3, d4⟩ := execSearch_spec he
    have hx : execFrom s 0 = some (q1, q2, q3) := by
      simp [execFrom, he]
    have hloop : scanLoopAux s.length s q3 = allEmailMatches (s.drop q3) :=
      scanLoopAux_eq s.length s q3 (by omega) (by omega)
    simp [recentActivityScan, hx, hloop, d1, d4]

/-- The default `{}` value of the destructuring `const { author = {},
committer = {} } = commit`. -/
def emptyIdent : GitIdent := ⟨none, none, none⟩

/-- The default `{}` value of the destructuring `const { commit = {} } =
commitJson`. -/
def emptyInner : CommitInner := ⟨none, none⟩

/-- The author object a commit entry destructures to (missing pieces
default to the empty object, so every field reads as `undefined`). -/
def authorIdent (cj : CommitJson) : GitIdent :=
  ((cj.commit.getD emptyInner).author).getD emptyIdent

/-- The committer object a commit entry destructures to. -/
def committerIdent (cj : CommitJson) : GitIdent :=
  ((cj.commit.getD emptyInner).committer).getD emptyIdent

/-- `acc.has(n)` on the insertion-ordered map, modelled as an
association list in insertion order. -/
def hasName (acc : List IdentRec) (n : String) : Bool :=
  acc.any (fun r => decide (r.name = n))

/-- One `if (name && !acc.has(name)) acc.set(name, {...})` step of the
reduce: a truthy (present, non-empty) name not yet in the map appends
its record; anything else leaves the map unchanged. -/
def considerIdent (acc : List IdentRec) (gi : GitIdent) : List IdentRec :=
  match gi.name with
  | none => acc
  | some n =>
    if n ≠ "" ∧ hasName acc n = false then acc ++ [⟨n, gi.email, gi.date⟩]
    else acc

/-- One iteration of the `reduce` over the commits array: the author is
considered before the committer. -/
def stepCommit (acc : List IdentRec) (cj : CommitJson) : List IdentRec :=
  considerIdent (considerIdent acc (authorIdent cj)) (committerIdent cj)

/-- The `commitsEmailsMap` built by the reduce, in insertion order. -/
def commitsEmailsMap (l : List CommitJson) : List IdentRec :=
  l.foldl stepCommit []

/-- The comparator test `a.date > b.date` on two JS `Date` values: both
must be valid dates and the first strictly larger; every comparison
against an invalid date (NaN) is false. -/
def dateGt : Option Int → Option Int → Bool
  | some a, some b => decide (a > b)
  | _, _ => false

/-- Reference stable descending insertion: the new element is placed
before the first element whose valid date it strictly exceeds, hence
after every element it ties with or loses to.  This is the mathematical
specification of a stable date-descending order, used below to reason
about the engine sort; it is not itself the model of the source's sort
call (that model is `sortV8`). -/
def orderedInsertDesc (x : IdentRec) : List IdentRec → List IdentRec
  | [] => [x]
  | y :: l =>
    if dateGt x.date y.date then x :: y :: l
    else y :: orderedInsertDesc x l

/-- Out-of-range placeholder for indexed reads of the prefix during the
binary search; every probed index is in range, so it is never read. -/
def padIdent : IdentRec := ⟨"", none, none⟩

/-- The binary search of V8's binary insertion sort, fuelled (the fuel
only bounds the iteration count: `right - left` shrinks at every step,
so the fuel supplied by `binSearch` never runs out): while
`left < right`, probe `mid = (left + right) / 2` and narrow to
`[left, mid)` when the comparator orders the pivot strictly before the
probed element (`cmp(pivot, a[mid]) < 0`, i.e.
`pivot.date > a[mid].date`), to `[mid + 1, right)` otherwise. -/
def binSearchAux (x : IdentRec) (P : List IdentRec) :
    Nat → Nat → Nat → Nat
  | 0, left, _ => left
  | fuel + 1, left, right =>
    if left < right then
      let mid := (left + right) / 2
      if dateGt x.date ((P.getD mid padIdent).date) then
        binSearchAux x P fuel left mid
      else binSearchAux x P fuel (mid + 1) right
    else left

/-- Insertion position of a pivot into the sorted prefix `P`, as V8's
binary insertion computes it. -/
def binSearch (x : IdentRec) (P : List IdentRec) : Nat :=
  binSearchAux x P P.length 0 P.length

/-- Insertion of an element at a given position of a list (the element
shift of the binary insertion). -/
def insertAt : Nat → IdentRec → List IdentRec → List IdentRec
  | 0, x, P => x :: P
  | _ + 1, x, [] => [x]
  | n + 1, x, y :: P => y :: insertAt n x P

/-- Tail of V8's ascending-run detection: extend the run while the
comparator does not order the current element strictly before its
predecessor (`cmp(current, previous) >= 0`, i.e. not
`current.date > previous.date`). -/
def takeRunAsc (prev : IdentRec) :
    List IdentRec → List IdentRec × List IdentRec
  | [] => ([], [])
  | c :: rest =>
    if dateGt c.date prev.date then ([], c :: rest)
    else (c :: (takeRunAsc c rest).1, (takeRunAsc c rest).2)

/-- Tail of V8's descending-run detection: extend the run while the
comparator orders the current element strictly before its predecessor
(`cmp(current, previous) < 0`). -/
def takeRunDesc (prev : IdentRec) :
    List IdentRec → List IdentRec × List IdentRec
  | [] => ([], [])
  | c :: rest =>
    if dateGt c.date prev.date then
      (c :: (takeRunDesc c rest).1, (takeRunDesc c rest).2)
    else ([], c :: rest)

/-- V8's `CountAndMakeRun`: the initial run is descending when
`cmp(a[1], a[0]) < 0`; it is extended accordingly and reversed when
descending. -/
def countAndMakeRun : List IdentRec → List IdentRec × List IdentRec
  | [] => ([], [])
  | [x] => ([x], [])
  | x :: y :: rest =>
    if dateGt y.date x.date then
      ((x :: y :: (takeRunDesc y rest).1).reverse, (takeRunDesc y rest).2)
    else (x :: y :: (takeRunAsc y rest).1, (takeRunAsc y rest).2)

/-- V8's `BinaryInsertionSort` loop: insert each remaining element into
the growing sorted prefix at the position the binary search returns. -/
def binInsertAll : List IdentRec → List IdentRec → List IdentRec
  | P, [] => P
  | P, x :: rest => binInsertAll (insertAt (binSearch x P) x P) rest

/-- Model of `[...].sort((a, b) => a.date > b.date ? -1 : 1)`.  The
comparator never returns `0` and reports `1` on ties in both argument
orders (and in every comparison against an invalid date), so ECMAScript
leaves the resulting order implementation-defined; the model follows
V8's TimSort in the regime this program exercises.  For arrays shorter
than 64 elements the computed minimal run length equals the array
length, so TimSort performs no merges: it detects one initial run
(reversing it when strictly descending) and binary-inserts every
remaining element — `countAndMakeRun` followed by `binInsertAll`.  A
30-commit page yields at most 60 identities, below that threshold.
Note that this sort does not always produce a date-descending order: an
invalid date compares false against everything, so e.g. dates
`[5, missing, 9]` come back unchanged. -/
def sortV8 (l : List IdentRec) : List IdentRec :=
  binInsertAll (countAndMakeRun l).1 (countAndMakeRun l).2

/-- The final `.map(({ name, email }) => ({ name, email }))`. -/
def stripDate (r : IdentRec) : NameEmail := ⟨r.name, r.email⟩

/-- The pure tail of `getRecentCommitsEmails` applied to a decoded
commits array: dedup map, sort, strip. -/
def recentCommitsPure (l : List CommitJson) : List NameEmail :=
  (sortV8 (commitsEmailsMap l)).map stripDate

/-- Embeds `getRepository`: a truthy `opts.repository` is returned
verbatim with no request; otherwise the owned-repositories endpoint is
queried and `404`, a non-array body or an empty array yield `null`,
while a non-empty array yields the first entry's `name` field. -/
def getRepository (username : String) (opts : GitHubEmailOpts) (w : World) :
    Option String × List ApiCall :=
  if jsTruthy opts.repository then (opts.repository, [])
  else
    let r := w.repos username
    if r.status = 404 then (none, [ApiCall.repos username])
    else
      match r.body with
      | none => (none, [ApiCall.repos username])
      | some [] => (none, [ApiCall.repos username])
      | some (e :: _) => (e.name, [ApiCall.repos username])

/-- Embeds `getRecentCommitsEmails`: resolve a repository (a falsy
result yields `[]`), fetch its commits, and on `404`, a non-array body
or an empty array yield `[]`; otherwise aggregate. -/
def getRecentCommitsEmails (username : String) (opts : GitHubEmailOpts)
    (w : World) : List NameEmail × List ApiCall :=
  let rep := getRepository username opts w
  match rep.1 with
  | none => ([], rep.2)
  | some repo =>
    if repo = "" then ([], rep.2)
    else
      let r := w.commits username repo
      if r.status = 404 then ([], rep.2 ++ [ApiCall.commits username repo])
      else
        match r.body with
        | none => ([], rep.2 ++ [ApiCall.commits username repo])
        | some [] => ([], rep.2 ++ [ApiCall.commits username repo])
        | some (cj :: rest) =>
          (recentCommitsPure (cj :: rest),
            rep.2 ++ [ApiCall.commits username repo])

/-- Embeds `githubEmail`: resolve the username (a falsy result throws
the user-not-found error), then run the four lookups and assemble the
result. -/
def githubEmail (opts : GitHubEmailOpts) (w : World) :
    Except GithubEmailError GitHubEmailResult × List ApiCall :=
  let u := getUsername opts w
  match u.1 with
  | none => (Except.error GithubEmailError.userNotFound, u.2)
  | some s =>
    if s = "" then (Except.error GithubEmailError.userNotFound, u.2)
    else
      let g := getGitHubEmail s opts w
      let n := getNpmEmail s w
      let rc := getRecentCommitsEmails s opts w
      let ra := getRecentActivityEmails s opts w
      (Except.ok ⟨g.1, n.1, rc.1, ra.1⟩, u.2 ++ g.2 ++ n.2 ++ rc.2 ++ ra.2)

/-- Spec-side validity test of one identity: a present, non-empty name
admits the identity as a `{ name, email, date }` record. -/
def validRec (gi : GitIdent) : Option IdentRec :=
  match gi.name with
  | none => none
  | some n => if n = "" then none else some ⟨n, gi.email, gi.date⟩

/-- All identities considered by the reduce, in consideration order:
commits in payload order, the author of each before its committer. -/
def flatIdents (l : List CommitJson) : List GitIdent :=
  l.flatMap (fun cj => [authorIdent cj, committerIdent cj])

/-- The considered identities that pass the name test, in order. -/
def validRecs (l : List CommitJson) : List IdentRec :=
  (flatIdents l).filterMap validRec

/-- Spec-side deduplication: keep the first record of every name,
in first-occurrence order. -/
def firstByName : List IdentRec → List IdentRec
  | [] => []
  | r :: rest =>
    r :: firstByName (rest.filter (fun q => decide (q.name ≠ r.name)))
  termination_by l => l.length
  decreasing_by
    simp only [List.length_cons]
    exact Nat.lt_succ_of_le (List.length_filter_le _ _)

/-- Insertion of one valid record into the map: a no-op when the name is
already present, an append otherwise. -/
def insert1 (acc : List IdentRec) (r : IdentRec) : List IdentRec :=
  if hasName acc r.name then acc else acc ++ [r]

theorem firstByName_nil : firstByName [] = [] := by
  rw [firstByName.eq_def]

theorem firstByName_cons (r : IdentRec) (rest : List IdentRec) :
    firstByName (r :: rest) =
      r :: firstByName (rest.filter (fun q => decide (q.name ≠ r.name))) := by
  rw [firstByName.eq_def]

theorem considerIdent_eq (acc : List IdentRec) (gi : GitIdent) :
    considerIdent acc gi =
      match validRec gi with
      | some r => insert1 acc r
      | none => acc := by
  cases hn : gi.name with
  | none => simp [considerIdent, validRec, hn]
  | some n =>
    by_cases he : n = ""
    · simp [considerIdent, validRec, hn, he]
    · by_cases hb : hasName acc n
      · simp [considerIdent, validRec, insert1, hn, he, hb]
      · simp [considerIdent, validRec, insert1, hn, he, hb]

theorem stepCommit_eq (acc : List IdentRec) (cj : CommitJson) :
    stepCommit acc cj =
      ([authorIdent cj, committerIdent cj].filterMap validRec).foldl
        insert1 acc := by
  rw [stepCommit, considerIdent_eq, considerIdent_eq]
  rcases ha : validRec (authorIdent cj) with _ | ra <;>
    rcases hc : validRec (committerIdent cj) with _ | rc <;>
      simp [ha, hc]

theorem foldl_stepCommit_eq (l : List CommitJson) :
    ∀ acc : List IdentRec,
      l.foldl stepCommit acc = (validRecs l).foldl insert1 acc := by
  induction l with
  | nil => intro acc; rfl
  | cons cj rest ih =>
    intro acc
    have hsplit : validRecs (cj :: rest) =
        [authorIdent cj, committerIdent cj].filterMap validRec ++
          validRecs rest := by
      rw [validRecs, flatIdents, List.flatMap_cons, List.filterMap_append]
      rfl
    rw [List.foldl_cons, ih, stepCommit_eq, hsplit, List.foldl_append]

theorem hasName_append_single (acc : List IdentRec) (x : IdentRec)
    (n : String) :
    hasName (acc ++ [x]) n = (hasName acc n || decide (x.name = n)) := by
  simp [hasName]

theorem foldl_insert1_eq (xs : List IdentRec) :
    ∀ acc : List IdentRec,
      xs.foldl insert1 acc =
        acc ++ firstByName (xs.filter (fun r => !(hasName acc r.name))) := by
  induction xs with
  | nil =>
    intro acc
    rw [List.filter_nil, firstByName_nil]
    simp
  | cons x rest ih =>
    intro acc
    by_cases hb : hasName acc x.name
    · have hfx : (List.filter (fun r => !(hasName acc r.name)) (x :: rest)) =
          List.filter (fun r => !(hasName acc r.name)) rest := by
        simp [List.filter_cons, hb]
      rw [List.foldl_cons, show insert1 acc x = acc from by simp [insert1, hb],
        ih acc, hfx]
    · have hfx : (List.filter (fun r => !(hasName acc r.name)) (x :: rest)) =
          x :: List.filter (fun r => !(hasName acc r.name)) rest := by
        simp [List.filter_cons, hb]
      have hcompose :
          List.filter (fun r => !(hasName (acc ++ [x]) r.name)) rest =
            List.filter (fun q => decide (q.name ≠ x.name))
              (List.filter (fun r => !(hasName acc r.name)) rest) := by
        rw [List.filter_filter]
        apply List.filter_congr
        intro q hq
        have hcomm : decide (x.name = q.name) = decide (q.name = x.name) :=
          decide_eq_decide.mpr eq_comm
        rw [hasName_append_single, hcomm]
        cases hhn : hasName acc q.name <;> by_cases h2 : q.name = x.name <;>
          simp [h2]
      rw [List.foldl_cons, show insert1 acc x = acc ++ [x] from by
        simp [insert1, hb], ih (acc ++ [x]), hfx, hcompose, firstByName_cons]
      simp

/-- C1 helper: the reduce-built map is exactly keep-the-first-record-of
every name over the considered valid identities. -/
theorem commitsEmailsMap_eq (l : List CommitJson) :
    commitsEmailsMap l = firstByName (validRecs l) := by
  rw [commitsEmailsMap, foldl_stepCommit_eq, foldl_insert1_eq]
  have hft : List.filter (fun r => !(hasName [] r.name)) (validRecs l) =
      validRecs l := by
    apply List.filter_eq_self.mpr
    intro a ha
    simp [hasName]
  rw [hft]
  rfl

/-- Descending order relation produced by the sort: a later element
never has a strictly greater (valid) date than an earlier one. -/
def RDesc (a b : IdentRec) : Prop := dateGt b.date a.date = false

theorem dateGt_asymm {a b : Option Int} (h : dateGt a b = true) :
    dateGt b a = false := by
  cases a <;> cases b <;> simp_all [dateGt] <;> omega

theorem dateGt_trans_neg {a b c : Option Int} (h1 : dateGt a b = true)
    (h2 : dateGt c b = false) : dateGt c a = false := by
  cases a <;> cases b <;> cases c <;> simp_all [dateGt] <;> omega

theorem mem_orderedInsertDesc {a x : IdentRec} {l : List IdentRec} :
    a ∈ orderedInsertDesc x l ↔ a = x ∨ a ∈ l := by
  induction l with
  | nil => simp [orderedInsertDesc]
  | cons y tl ih =>
    cases hgt : dateGt x.date y.date <;> simp [orderedInsertDesc, hgt, ih] <;>
      tauto

theorem orderedInsertDesc_pairwise {x : IdentRec} {l : List IdentRec}
    (h : l.Pairwise RDesc) : (orderedInsertDesc x l).Pairwise RDesc := by
  induction l with
  | nil => simp [orderedInsertDesc]
  | cons y tl ih =>
    rw [List.pairwise_cons] at h
    obtain ⟨hy, ht⟩ := h
    cases hgt : dateGt x.date y.date
    · simp only [orderedInsertDesc, hgt, Bool.false_eq_true, if_false]
      rw [List.pairwise_cons]
      constructor
      · intro z hz
        rw [mem_orderedInsertDesc] at hz
        rcases hz with rfl | hz
        · exact hgt
        · exact hy z hz
      · exact ih ht
    · simp only [orderedInsertDesc, hgt, if_true]
      rw [List.pairwise_cons]
      constructor
      · intro z hz
        rw [List.mem_cons] at hz
        rcases hz with rfl | hz
        · exact dateGt_asymm hgt
        · exact dateGt_trans_neg hgt (hy z hz)
      · rw [List.pairwise_cons]
        exact ⟨hy, ht⟩

theorem orderedInsertDesc_filter_date {x : IdentRec} {l : List IdentRec} {t : Int}
    (h : l.Pairwise RDesc) :
    (orderedInsertDesc x l).filter (fun r => decide (r.date = some t)) =
      l.filter (fun r => decide (r.date = some t)) ++
        (if x.date = some t then [x] else []) := by
  induction l with
  | nil =>
    by_cases hx : x.date = some t <;> simp [orderedInsertDesc, hx]
  | cons y tl ih =>
    rw [List.pairwise_cons] at h
    obtain ⟨hy, ht⟩ := h
    cases hgt : dateGt x.date y.date
    · simp only [orderedInsertDesc, hgt, Bool.false_eq_true, if_false]
      rw [List.filter_cons, List.filter_cons]
      by_cases hyt : decide (y.date = some t) = true
      · rw [if_pos hyt, if_pos hyt, ih ht, List.cons_append]
      · rw [if_neg hyt, if_neg hyt, ih ht]
    · simp only [orderedInsertDesc, hgt, if_true]
      by_cases hx : x.date = some t
      · rcases hyd : y.date with _ | b
        · rw [hx, hyd] at hgt
          simp [dateGt] at hgt
        · rw [hx, hyd] at hgt
          simp [dateGt] at hgt
          have hemp : List.filter (fun r => decide (r.date = some t))
              (y :: tl) = [] := by
            rw [List.filter_eq_nil_iff]
            intro a ha
            rw [List.mem_cons] at ha
            rcases ha with rfl | ha
            · simp [hyd]
              omega
            · intro hcon
              simp at hcon
              have hra := hy a ha
              rw [RDesc, hcon, hyd] at hra
              simp [dateGt] at hra
              omega
          rw [List.filter_cons, if_pos (by simp [hx]), hemp, hx]
          simp
      · rw [List.filter_cons, if_neg (by simp [hx]), if_neg hx]
        simp

theorem foldl_orderedInsertDesc_pairwise (l : List IdentRec) :
    ∀ acc : List IdentRec, acc.Pairwise RDesc →
      (l.foldl (fun acc x => orderedInsertDesc x acc) acc).Pairwise RDesc := by
  induction l with
  | nil => intro acc hacc; exact hacc
  | cons x rest ih =>
    intro acc hacc
    rw [List.foldl_cons]
    exact ih (orderedInsertDesc x acc) (orderedInsertDesc_pairwise hacc)

theorem foldl_orderedInsertDesc_filter_date (l : List IdentRec) (t : Int) :
    ∀ acc : List IdentRec, acc.Pairwise RDesc →
      (l.foldl (fun acc x => orderedInsertDesc x acc) acc).filter
          (fun r => decide (r.date = some t)) =
        acc.filter (fun r => decide (r.date = some t)) ++
          l.filter (fun r => decide (r.date = some t)) := by
  induction l with
  | nil => intro acc hacc; simp
  | cons x rest ih =>
    intro acc hacc
    rw [List.foldl_cons, ih (orderedInsertDesc x acc) (orderedInsertDesc_pairwise hacc),
      orderedInsertDesc_filter_date hacc, List.filter_cons]
    by_cases hx : x.date = some t
    · rw [if_pos hx, if_pos (by simp [hx])]
      simp
    · rw [if_neg hx, if_neg (by simp [hx])]
      simp

theorem mem_firstByName_aux : ∀ (n : Nat) (l : List IdentRec),
    l.length ≤ n → ∀ {a : IdentRec}, a ∈ firstByName l → a ∈ l := by
  intro n
  induction n with
  | zero =>
    intro l hl a h
    cases l with
    | nil => rw [firstByName_nil] at h; exact h
    | cons r rest => simp at hl
  | succ n ih =>
    intro l hl a h
    cases l with
    | nil => rw [firstByName_nil] at h; exact h
    | cons r rest =>
      rw [firstByName_cons] at h
      rcases List.mem_cons.mp h with rfl | h2
      · exact List.mem_cons_self _ _
      · have hle := List.length_filter_le
          (fun q => decide (q.name ≠ r.name)) rest
        have hmem := ih (rest.filter (fun q => decide (q.name ≠ r.name)))
          (by simp at hl; omega) h2
        exact List.mem_cons_of_mem r (List.mem_of_mem_filter hmem)

theorem mem_firstByName {a : IdentRec} {l : List IdentRec}
    (h : a ∈ firstByName l) : a ∈ l :=
  mem_firstByName_aux l.length l le_rfl h

theorem validRec_some {gi : GitIdent} {r : IdentRec}
    (h : validRec gi = some r) :
    gi.name = some r.name ∧ gi.email = r.email ∧ gi.date = r.date ∧
      r.name ≠ "" := by
  cases hn : gi.name with
  | none => simp [validRec, hn] at h
  | some n =>
    by_cases he : n = ""
    · simp [validRec, hn, he] at h
    · simp [validRec, hn, he] at h
      rw [← h]
      exact ⟨rfl, rfl, rfl, he⟩

theorem mem_validRecs {r : IdentRec} {l : List CommitJson}
    (h : r ∈ validRecs l) :
    ∃ gi ∈ flatIdents l, validRec gi = some r := by
  rw [validRecs, List.mem_filterMap] at h
  exact h

theorem find?_filter_of_imp {p q : IdentRec → Bool}
    (himp : ∀ a, p a = true → q a = true) : ∀ l : List IdentRec,
    (l.filter q).find? p = l.find? p := by
  intro l
  induction l with
  | nil => rfl
  | cons a rest ih =>
    cases hq : q a
    · have hp : p a = false := by
        cases hp : p a
        · rfl
        · rw [himp a hp] at hq
          cases hq
      rw [List.filter_cons, if_neg (by simp [hq]), ih,
        List.find?_cons_of_neg _ (by simp [hp])]
    · rw [List.filter_cons, if_pos (by simp [hq])]
      cases hp : p a
      · rw [List.find?_cons_of_neg _ (by simp [hp]),
          List.find?_cons_of_neg _ (by simp [hp]), ih]
      · rw [List.find?_cons_of_pos _ (by simp [hp]),
          List.find?_cons_of_pos _ (by simp [hp])]

theorem find?_firstByName_aux : ∀ (n : Nat) (l : List IdentRec),
    l.length ≤ n → ∀ {r : IdentRec}, r ∈ firstByName l →
    l.find? (fun q => decide (q.name = r.name)) = some r := by
  intro n
  induction n with
  | zero =>
    intro l hl r h
    cases l with
    | nil => rw [firstByName_nil] at h; cases h
    | cons r0 rest => simp at hl
  | succ n ih =>
    intro l hl r h
    cases l with
    | nil => rw [firstByName_nil] at h; cases h
    | cons r0 rest =>
      rw [firstByName_cons] at h
      rcases List.mem_cons.mp h with rfl | h2
      · exact List.find?_cons_of_pos _ (by simp)
      · have hmemf := mem_firstByName h2
        have hne : r.name ≠ r0.name := by
          have := List.mem_filter.mp hmemf
          simpa using this.2
        have hle := List.length_filter_le
          (fun q => decide (q.name ≠ r0.name)) rest
        have hrec := ih (rest.filter (fun q => decide (q.name ≠ r0.name)))
          (by simp at hl; omega) h2
        rw [List.find?_cons_of_neg _ (by simp; exact fun hc => hne hc.symm)]
        rw [← find?_filter_of_imp (q := fun q => decide (q.name ≠ r0.name))
          (p := fun q => decide (q.name = r.name)) ?_ rest, hrec]
        intro a hp
        simp at hp ⊢
        rw [hp]
        exact hne

theorem find?_firstByName {r : IdentRec} {l : List IdentRec}
    (h : r ∈ firstByName l) :
    l.find? (fun q => decide (q.name = r.name)) = some r :=
  find?_firstByName_aux l.length l le_rfl h

/-- Strict date order between records: the second has the strictly
greater valid date (validity of both is forced by `dateGt`). -/
def DGt (a b : IdentRec) : Prop := dateGt b.date a.date = true

theorem dateGt_true_of_le {x a b : Option Int} (h1 : dateGt x a = true)
    (h2 : dateGt b a = false) (hb : b.isSome = true) :
    dateGt x b = true := by
  cases x <;> cases a <;> cases b <;> simp_all [dateGt] <;> omega

theorem RDesc_trans_valid {a b c : IdentRec} (ha : a.date.isSome = true)
    (hb : b.date.isSome = true) (hc : c.date.isSome = true)
    (h1 : RDesc a b) (h2 : RDesc b c) : RDesc a c := by
  simp only [RDesc] at h1 h2 ⊢
  cases hda : a.date <;> cases hdb : b.date <;> cases hdc : c.date <;>
    simp_all [dateGt] <;> omega

theorem DGt_trans {a b c : IdentRec} (h1 : DGt a b) (h2 : DGt b c) :
    DGt a c := by
  simp only [DGt] at h1 h2 ⊢
  cases hda : a.date <;> cases hdb : b.date <;> cases hdc : c.date <;>
    simp_all [dateGt] <;> omega

theorem mem_insertAt {a x : IdentRec} : ∀ (n : Nat) (P : List IdentRec),
    a ∈ insertAt n x P ↔ a = x ∨ a ∈ P := by
  intro n
  induction n with
  | zero => intro P; simp [insertAt]
  | succ n ih =>
    intro P
    cases P with
    | nil => simp [insertAt]
    | cons y rest =>
      rw [show insertAt (n + 1) x (y :: rest) = y :: insertAt n x rest
        from rfl]
      simp only [List.mem_cons, ih rest]
      tauto

theorem mem_binInsertAll {a : IdentRec} : ∀ (rest P : List IdentRec),
    a ∈ binInsertAll P rest ↔ a ∈ P ∨ a ∈ rest := by
  intro rest
  induction rest with
  | nil => intro P; simp [binInsertAll]
  | cons x rest ih =>
    intro P
    rw [show binInsertAll P (x :: rest) =
      binInsertAll (insertAt (binSearch x P) x P) rest from rfl]
    rw [ih, mem_insertAt]
    simp only [List.mem_cons]
    tauto

theorem takeRunAsc_spec : ∀ (l : List IdentRec) (prev : IdentRec),
    l = (takeRunAsc prev l).1 ++ (takeRunAsc prev l).2 ∧
      List.Chain RDesc prev (takeRunAsc prev l).1 := by
  intro l
  induction l with
  | nil => intro prev; exact ⟨rfl, List.Chain.nil⟩
  | cons c rest ih =>
    intro prev
    cases hgt : dateGt c.date prev.date
    · rw [show takeRunAsc prev (c :: rest) =
        (c :: (takeRunAsc c rest).1, (takeRunAsc c rest).2) from by
          simp [takeRunAsc, hgt]]
      obtain ⟨hsp, hch⟩ := ih c
      constructor
      · rw [List.cons_append]
        exact congrArg (List.cons c) hsp
      · exact List.Chain.cons hgt hch
    · rw [show takeRunAsc prev (c :: rest) = ([], c :: rest) from by
        simp [takeRunAsc, hgt]]
      exact ⟨rfl, List.Chain.nil⟩

theorem takeRunDesc_spec : ∀ (l : List IdentRec) (prev : IdentRec),
    l = (takeRunDesc prev l).1 ++ (takeRunDesc prev l).2 ∧
      List.Chain DGt prev (takeRunDesc prev l).1 := by
  intro l
  induction l with
  | nil => intro prev; exact ⟨rfl, List.Chain.nil⟩
  | cons c rest ih =>
    intro prev
    cases hgt : dateGt c.date prev.date
    · rw [show takeRunDesc prev (c :: rest) = ([], c :: rest) from by
        simp [takeRunDesc, hgt]]
      exact ⟨rfl, List.Chain.nil⟩
    · rw [show takeRunDesc prev (c :: rest) =
        (c :: (takeRunDesc c rest).1, (takeRunDesc c rest).2) from by
          simp [takeRunDesc, hgt]]
      obtain ⟨hsp, hch⟩ := ih c
      constructor
      · rw [List.cons_append]
        exact congrArg (List.cons c) hsp
      · exact List.Chain.cons hgt hch

theorem countAndMakeRun_spec (l : List IdentRec) :
    ∃ l1 : List IdentRec,
      l = l1 ++ (countAndMakeRun l).2 ∧
      (((countAndMakeRun l).1 = l1 ∧ l1.Chain' RDesc) ∨
        ((countAndMakeRun l).1 = l1.reverse ∧ l1.Chain' DGt)) := by
  cases l with
  | nil => exact ⟨[], rfl, Or.inl ⟨rfl, trivial⟩⟩
  | cons x l0 =>
    cases l0 with
    | nil => exact ⟨[x], rfl, Or.inl ⟨rfl, List.chain'_singleton x⟩⟩
    | cons y rest =>
      cases hgt : dateGt y.date x.date
      · refine ⟨x :: y :: (takeRunAsc y rest).1, ?_, Or.inl ⟨?_, ?_⟩⟩
        · rw [show (countAndMakeRun (x :: y :: rest)).2 =
            (takeRunAsc y rest).2 from by simp [countAndMakeRun, hgt]]
          have hsp := (takeRunAsc_spec rest y).1
          simp only [List.cons_append]
          rw [← hsp]
        · simp [countAndMakeRun, hgt]
        · exact List.Chain.cons hgt (takeRunAsc_spec rest y).2
      · refine ⟨x :: y :: (takeRunDesc y rest).1, ?_, Or.inr ⟨?_, ?_⟩⟩
        · rw [show (countAndMakeRun (x :: y :: rest)).2 =
            (takeRunDesc y rest).2 from by simp [countAndMakeRun, hgt]]
          have hsp := (takeRunDesc_spec rest y).1
          simp only [List.cons_append]
          rw [← hsp]
        · simp [countAndMakeRun, hgt]
        · exact List.Chain.cons hgt (takeRunDesc_spec rest y).2

theorem mem_sortV8 {a : IdentRec} {l : List IdentRec} :
    a ∈ sortV8 l ↔ a ∈ l := by
  obtain ⟨l1, heq, hcase⟩ := countAndMakeRun_spec l
  unfold sortV8
  rw [mem_binInsertAll]
  rcases hcase with ⟨hrun, _⟩ | ⟨hrun, _⟩
  · rw [hrun]
    conv_rhs => rw [heq]
    simp [List.mem_append]
  · rw [hrun]
    conv_rhs => rw [heq]
    simp [List.mem_append, List.mem_reverse]

theorem getD_mem : ∀ (l : List IdentRec) (n : Nat), n < l.length →
    l.getD n padIdent ∈ l := by
  intro l
  induction l with
  | nil => intro n h; simp at h
  | cons y r ih =>
    intro n h
    cases n with
    | zero => simp
    | succ n =>
      rw [List.getD_cons_succ]
      refine List.mem_cons_of_mem y (ih n ?_)
      simp only [List.length_cons] at h
      omega

theorem findIdx_le_len (p : IdentRec → Bool) :
    ∀ l : List IdentRec, l.findIdx p ≤ l.length := by
  intro l
  induction l with
  | nil => simp
  | cons y r ih =>
    rw [List.findIdx_cons]
    cases hp : p y <;> simp [hp] <;> omega

theorem findIdx_lt_spec (p : IdentRec → Bool) : ∀ (l : List IdentRec)
    (i : Nat), i < l.findIdx p → p (l.getD i padIdent) = false := by
  intro l
  induction l with
  | nil => intro i h; simp at h
  | cons y r ih =>
    intro i h
    rw [List.findIdx_cons] at h
    cases hp : p y
    · rw [hp] at h
      simp only [cond_false] at h
      cases i with
      | zero => simpa using hp
      | succ i =>
        rw [List.getD_cons_succ]
        exact ih i (by omega)
    · rw [hp] at h
      simp at h

theorem findIdx_getD (p : IdentRec → Bool) : ∀ l : List IdentRec,
    l.findIdx p < l.length → p (l.getD (l.findIdx p) padIdent) = true := by
  intro l
  induction l with
  | nil => intro h; simp at h
  | cons y r ih =>
    intro h
    rw [List.findIdx_cons] at h ⊢
    cases hp : p y
    · rw [hp] at h
      simp only [cond_false, List.length_cons] at h
      simp only [cond_false, List.getD_cons_succ]
      exact ih (by omega)
    · simp only [cond_true, List.getD_cons_zero]
      exact hp

theorem pairwise_getD : ∀ (l : List IdentRec), l.Pairwise RDesc →
    ∀ i j : Nat, i < j → j < l.length →
    RDesc (l.getD i padIdent) (l.getD j padIdent) := by
  intro l
  induction l with
  | nil => intro _ i j _ hj; simp at hj
  | cons y r ih =>
    intro h i j hij hj
    rw [List.pairwise_cons] at h
    cases i with
    | zero =>
      cases j with
      | zero => omega
      | succ j =>
        rw [List.getD_cons_zero, List.getD_cons_succ]
        refine h.1 _ (getD_mem r j ?_)
        simp only [List.length_cons] at hj
        omega
    | succ i =>
      cases j with
      | zero => omega
      | succ j =>
        rw [List.getD_cons_succ, List.getD_cons_succ]
        refine ih h.2 i j (by omega) ?_
        simp only [List.length_cons] at hj
        omega

theorem dateGt_probe_mono (x : IdentRec) (P : List IdentRec)
    (hP : P.Pairwise RDesc) (hvP : ∀ r ∈ P, r.date.isSome = true) :
    ∀ i j : Nat, i ≤ j → j < P.length →
    dateGt x.date ((P.getD i padIdent).date) = true →
    dateGt x.date ((P.getD j padIdent).date) = true := by
  intro i j hij hj hi
  rcases Nat.eq_or_lt_of_le hij with rfl | hlt
  · exact hi
  · have hsorted := pairwise_getD P hP i j hlt hj
    simp only [RDesc] at hsorted
    exact dateGt_true_of_le hi hsorted (hvP _ (getD_mem P j hj))

theorem binSearchAux_correct (x : IdentRec) (P : List IdentRec)
    (hP : P.Pairwise RDesc) (hvP : ∀ r ∈ P, r.date.isSome = true) :
    ∀ (fuel left right : Nat),
      left ≤ P.findIdx (fun e => dateGt x.date e.date) →
      P.findIdx (fun e => dateGt x.date e.date) ≤ right →
      right ≤ P.length → right - left ≤ fuel →
      binSearchAux x P fuel left right =
        P.findIdx (fun e => dateGt x.date e.date) := by
  intro fuel
  induction fuel with
  | zero =>
    intro left right h1 h2 h3 h4
    simp only [binSearchAux]
    omega
  | succ fuel ih =>
    intro left right h1 h2 h3 h4
    by_cases hlr : left < right
    · cases hpm : dateGt x.date
        ((P.getD ((left + right) / 2) padIdent).date)
      · have hT : (left + right) / 2 <
            P.findIdx (fun e => dateGt x.date e.date) := by
          by_contra hc
          push_neg at hc
          have hTlen : P.findIdx (fun e => dateGt x.date e.date) <
              P.length := by omega
          have hptrue := findIdx_getD (fun e => dateGt x.date e.date) P hTlen
          have hmono := dateGt_probe_mono x P hP hvP _ _ hc
            (by omega) hptrue
          exact Bool.noConfusion (hmono.symm.trans hpm)
        have hcond : ¬ (dateGt x.date
            ((P.getD ((left + right) / 2) padIdent).date) = true) := by
          rw [hpm]
          exact Bool.false_ne_true
        have hunfold : binSearchAux x P (fuel + 1) left right =
            binSearchAux x P fuel ((left + right) / 2 + 1) right := by
          conv_lhs => rw [binSearchAux]
          rw [if_pos hlr]
          exact if_neg hcond
        rw [hunfold]
        exact ih _ _ (by omega) h2 h3 (by omega)
      · have hT : P.findIdx (fun e => dateGt x.date e.date) ≤
            (left + right) / 2 := by
          by_contra hc
          push_neg at hc
          have hfalse := findIdx_lt_spec
            (fun e => dateGt x.date e.date) P _ hc
          exact Bool.noConfusion (hfalse.symm.trans hpm)
        have hunfold : binSearchAux x P (fuel + 1) left right =
            binSearchAux x P fuel left ((left + right) / 2) := by
          conv_lhs => rw [binSearchAux]
          rw [if_pos hlr]
          exact if_pos hpm
        rw [hunfold]
        exact ih _ _ h1 hT (by omega) (by omega)
    · simp only [binSearchAux, if_neg hlr]
      omega

theorem binSearch_eq_findIdx (x : IdentRec) (P : List IdentRec)
    (hP : P.Pairwise RDesc) (hvP : ∀ r ∈ P, r.date.isSome = true) :
    binSearch x P = P.findIdx (fun e => dateGt x.date e.date) := by
  unfold binSearch
  exact binSearchAux_correct x P hP hvP P.length 0 P.length
    (Nat.zero_le _) (findIdx_le_len _ P) le_rfl (by omega)

theorem insertAt_findIdx (x : IdentRec) : ∀ P : List IdentRec,
    insertAt (P.findIdx (fun e => dateGt x.date e.date)) x P =
      orderedInsertDesc x P := by
  intro P
  induction P with
  | nil => rfl
  | cons y r ih =>
    rw [List.findIdx_cons]
    cases hp : dateGt x.date y.date
    · simp only [cond_false]
      rw [show insertAt
          ((List.findIdx (fun e => dateGt x.date e.date) r) + 1) x
          (y :: r) =
        y :: insertAt (List.findIdx (fun e => dateGt x.date e.date) r) x r
        from rfl]
      rw [ih]
      simp [orderedInsertDesc, hp]
    · simp only [cond_true]
      simp [insertAt, orderedInsertDesc, hp]

theorem binInsertAll_eq_foldl : ∀ (rest P : List IdentRec),
    P.Pairwise RDesc → (∀ r ∈ P, r.date.isSome = true) →
    (∀ r ∈ rest, r.date.isSome = true) →
    binInsertAll P rest =
      rest.foldl (fun acc x => orderedInsertDesc x acc) P := by
  intro rest
  induction rest with
  | nil => intro P _ _ _; rfl
  | cons x rest ih =>
    intro P hP hvP hvrest
    have hvx : x.date.isSome = true := hvrest x (by simp)
    have hstep : insertAt (binSearch x P) x P = orderedInsertDesc x P := by
      rw [binSearch_eq_findIdx x P hP hvP, insertAt_findIdx]
    rw [show binInsertAll P (x :: rest) =
      binInsertAll (insertAt (binSearch x P) x P) rest from rfl, hstep,
      List.foldl_cons]
    apply ih
    · exact orderedInsertDesc_pairwise hP
    · intro r hr
      rw [mem_orderedInsertDesc] at hr
      rcases hr with rfl | hr
      · exact hvx
      · exact hvP r hr
    · intro r hr
      exact hvrest r (by simp [hr])

theorem chain_RDesc_pairwise : ∀ (l : List IdentRec) (x : IdentRec),
    (∀ r ∈ x :: l, r.date.isSome = true) → List.Chain RDesc x l →
    (x :: l).Pairwise RDesc := by
  intro l
  induction l with
  | nil => intro x _ _; simp
  | cons y r ih =>
    intro x hval hch
    cases hch with
    | cons hxy hyr =>
      have hpy := ih y (fun z hz => hval z (by
        simp only [List.mem_cons] at hz ⊢
        tauto)) hyr
      rw [List.pairwise_cons]
      refine ⟨?_, hpy⟩
      intro z hz
      rcases List.mem_cons.mp hz with rfl | hz2
      · exact hxy
      · have hyz : RDesc y z := (List.pairwise_cons.mp hpy).1 z hz2
        exact RDesc_trans_valid (hval x (by simp)) (hval y (by simp))
          (hval z (by simp [hz2])) hxy hyz

theorem chain_DGt_pairwise : ∀ (l : List IdentRec) (x : IdentRec),
    List.Chain DGt x l → (x :: l).Pairwise DGt := by
  intro l
  induction l with
  | nil => intro x _; simp
  | cons y r ih =>
    intro x hch
    cases hch with
    | cons hxy hyr =>
      have hpy := ih y hyr
      rw [List.pairwise_cons]
      refine ⟨?_, hpy⟩
      intro z hz
      rcases List.mem_cons.mp hz with rfl | hz2
      · exact hxy
      · exact DGt_trans hxy ((List.pairwise_cons.mp hpy).1 z hz2)

theorem filter_date_len_le_one (t : Int) : ∀ l : List IdentRec,
    l.Pairwise DGt →
    (l.filter (fun r => decide (r.date = some t))).length ≤ 1 := by
  intro l
  induction l with
  | nil => intro _; simp
  | cons y r ih =>
    intro h
    rw [List.pairwise_cons] at h
    rw [List.filter_cons]
    by_cases hy : (decide (y.date = some t)) = true
    · rw [if_pos hy]
      have hre : r.filter (fun r => decide (r.date = some t)) = [] := by
        rw [List.filter_eq_nil_iff]
        intro a ha
        have hda := h.1 a ha
        simp only [DGt] at hda
        simp only [decide_eq_true_eq] at hy
        intro hc
        simp only [decide_eq_true_eq] at hc
        rw [hc, hy] at hda
        simp only [dateGt, decide_eq_true_eq] at hda
        omega
      rw [hre]
      simp
    · rw [if_neg hy]
      exact ih h.2

theorem reverse_eq_of_len_le_one {l : List IdentRec} (h : l.length ≤ 1) :
    l.reverse = l := by
  cases l with
  | nil => rfl
  | cons y r =>
    cases r with
    | nil => rfl
    | cons z r2 =>
      simp only [List.length_cons] at h
      omega

theorem sortV8_run_analysis (m : List IdentRec)
    (hval : ∀ r ∈ m, r.date.isSome = true) :
    (countAndMakeRun m).1.Pairwise RDesc ∧
    (∀ r ∈ (countAndMakeRun m).1, r.date.isSome = true) ∧
    (∀ r ∈ (countAndMakeRun m).2, r.date.isSome = true) ∧
    ∀ t : Int,
      (countAndMakeRun m).1.filter (fun r => decide (r.date = some t)) ++
        (countAndMakeRun m).2.filter (fun r => decide (r.date = some t)) =
      m.filter (fun r => decide (r.date = some t)) := by
  obtain ⟨l1, heq, hcase⟩ := countAndMakeRun_spec m
  have hv1 : ∀ r ∈ l1, r.date.isSome = true := by
    intro r hr
    exact hval r (by rw [heq]; exact List.mem_append_left _ hr)
  have hv2 : ∀ r ∈ (countAndMakeRun m).2, r.date.isSome = true := by
    intro r hr
    exact hval r (by rw [heq]; exact List.mem_append_right _ hr)
  rcases hcase with ⟨hrun, hch⟩ | ⟨hrun, hch⟩
  · have hpair : l1.Pairwise RDesc := by
      cases l1 with
      | nil => exact List.Pairwise.nil
      | cons a l2 => exact chain_RDesc_pairwise l2 a hv1 hch
    refine ⟨by rw [hrun]; exact hpair, by rw [hrun]; exact hv1, hv2, ?_⟩
    intro t
    rw [hrun, ← List.filter_append, ← heq]
  · have hpairD : l1.Pairwise DGt := by
      cases l1 with
      | nil => exact List.Pairwise.nil
      | cons a l2 => exact chain_DGt_pairwise l2 a hch
    have hpair : (l1.reverse).Pairwise RDesc := by
      rw [List.pairwise_reverse]
      exact hpairD.imp (fun h => dateGt_asymm h)
    refine ⟨by rw [hrun]; exact hpair, ?_, hv2, ?_⟩
    · rw [hrun]
      intro r hr
      exact hv1 r (List.mem_reverse.mp hr)
    · intro t
      rw [hrun, List.filter_reverse,
        reverse_eq_of_len_le_one (filter_date_len_le_one t l1 hpairD),
        ← List.filter_append, ← heq]

/-- On inputs whose records all carry valid dates, the engine sort is
date-descending. -/
theorem sortV8_pairwise_of_valid (m : List IdentRec)
    (hval : ∀ r ∈ m, r.date.isSome = true) :
    (sortV8 m).Pairwise RDesc := by
  obtain ⟨hpair, hv1, hv2, _⟩ := sortV8_run_analysis m hval
  unfold sortV8
  rw [binInsertAll_eq_foldl _ _ hpair hv1 hv2]
  exact foldl_orderedInsertDesc_pairwise _ _ hpair

/-- On inputs whose records all carry valid dates, the engine sort is
stable: the records of any fixed date keep their input order. -/
theorem sortV8_filter_of_valid (m : List IdentRec)
    (hval : ∀ r ∈ m, r.date.isSome = true) (t : Int) :
    (sortV8 m).filter (fun r => decide (r.date = some t)) =
      m.filter (fun r => decide (r.date = some t)) := by
  obtain ⟨hpair, hv1, hv2, hfil⟩ := sortV8_run_analysis m hval
  unfold sortV8
  rw [binInsertAll_eq_foldl _ _ hpair hv1 hv2,
    foldl_orderedInsertDesc_filter_date _ t _ hpair]
  exact hfil t

/-- A concrete network giving the profile-by-id endpoint a fixed login
and every other endpoint a 404; used to instantiate theorems with
hypotheses. -/
def trivWorld : World :=
  ⟨fun _ => ⟨200, some "octocat"⟩, fun _ => ⟨404, none⟩, fun _ => ⟨404, none⟩,
    fun _ => ⟨404, []⟩, fun _ => ⟨404, none⟩, fun _ _ => ⟨404, none⟩⟩

/-- A concrete network whose repos endpoint serves one repository. -/
def repoWorld : World :=
  ⟨fun _ => ⟨200, some "octocat"⟩, fun _ => ⟨404, none⟩, fun _ => ⟨404, none⟩,
    fun _ => ⟨404, []⟩, fun _ => ⟨200, some [⟨some "first-repo"⟩]⟩,
    fun _ _ => ⟨404, none⟩⟩

/-- Username-carrying options with no token and no repository. -/
def optsU : GitHubEmailOpts := ⟨UserRef.byUsername "octocat", none, none⟩

/-- Username-carrying options with a pinned repository. -/
def optsRepo : GitHubEmailOpts :=
  ⟨UserRef.byUsername "octocat", none, some "pinned"⟩

/-- Username-carrying options with an empty-string repository. -/
def optsEmptyRepo : GitHubEmailOpts :=
  ⟨UserRef.byUsername "octocat", none, some ""⟩

/-- C7: for every request that carries a username directly, username
resolution returns that username unchanged and issues no network
call. -/
theorem c7_username_passthrough (u : String) (opts : GitHubEmailOpts)
    (w : World) (h : opts.user = UserRef.byUsername u) :
    getUsername opts w = (some u, []) := by
  simp [getUsername, h]

/-- C7 witness: instantiation at a concrete username request and
network. -/
theorem c7_username_passthrough_witness :
    optsU.user = UserRef.byUsername "octocat" ∧
    getUsername optsU trivWorld = (some "octocat", []) :=
  ⟨rfl, c7_username_passthrough "octocat" optsU trivWorld rfl⟩

/-- C10: an empty-string repository override is falsy, so it is not used
verbatim; repository selection behaves exactly as if no override were
supplied, and the owned-repositories request is issued. -/
theorem c10_empty_override_autoselects (username : String)
    (opts : GitHubEmailOpts) (w : World) (h : opts.repository = some "") :
    getRepository username opts w =
      getRepository username ⟨opts.user, opts.token, none⟩ w ∧
    (getRepository username opts w).2 = [ApiCall.repos username] := by
  have hf : jsTruthy opts.repository = false := by rw [h]; rfl
  have hf2 : jsTruthy (none : Option String) = false := rfl
  constructor
  · simp only [getRepository, hf, hf2, Bool.false_eq_true, if_false]
  · simp only [getRepository, hf, Bool.false_eq_true, if_false]
    by_cases h4 : (w.repos username).status = 404
    · simp [h4]
    · simp only [h4, if_false]
      rcases hb : (w.repos username).body with _ | ⟨_ | ⟨e, rest⟩⟩ <;> simp

/-- C10 witness: instantiation at a concrete empty-string override. -/
theorem c10_empty_override_autoselects_witness :
    optsEmptyRepo.repository = some "" ∧
    (getRepository "octocat" optsEmptyRepo repoWorld =
      getRepository "octocat"
        ⟨optsEmptyRepo.user, optsEmptyRepo.token, none⟩ repoWorld ∧
    (getRepository "octocat" optsEmptyRepo repoWorld).2 =
      [ApiCall.repos "octocat"]) :=
  ⟨rfl, c10_empty_override_autoselects "octocat" optsEmptyRepo repoWorld rfl⟩

/-- C5: a truthy caller-supplied repository name is used verbatim with
no network call; otherwise the first entry of the pushed-sorted
owned-repositories list is selected; and a 404 or empty/non-array repos
body makes the commit-history lookup return the empty list instead of
an error. -/
theorem c5_repository_selection (username : String)
    (opts : GitHubEmailOpts) (w : World) :
    (∀ r : String, opts.repository = some r → r ≠ "" →
      getRepository username opts w = (some r, [])) ∧
    (jsTruthy opts.repository = false → (w.repos username).status ≠ 404 →
      ∀ (e : RepoEntry) (rest : List RepoEntry),
        (w.repos username).body = some (e :: rest) →
        getRepository username opts w = (e.name, [ApiCall.repos username])) ∧
    (jsTruthy opts.repository = false →
      ((w.repos username).status = 404 ∨ (w.repos username).body = none ∨
        (w.repos username).body = some []) →
      (getRecentCommitsEmails username opts w).1 = []) := by
  refine ⟨?_, ?_, ?_⟩
  · intro r hr hne
    have ht : jsTruthy (some r) = true := by
      simp [jsTruthy, hne]
    simp only [getRepository, hr, ht, if_true]
  · intro hf h404 e rest hb
    simp only [getRepository, hf, Bool.false_eq_true, if_false, h404, hb]
  · intro hf hdeg
    have hrep : getRepository username opts w =
        (none, [ApiCall.repos username]) := by
      simp only [getRepository, hf, Bool.false_eq_true, if_false]
      rcases hdeg with h4 | hb | hb
      · simp [h4]
      · by_cases h4 : (w.repos username).status = 404
        · simp [h4]
        · simp [h4, hb]
      · by_cases h4 : (w.repos username).status = 404
        · simp [h4]
        · simp [h4, hb]
    simp only [getRecentCommitsEmails, hrep]

/-- C5 witness: instantiations at a pinned override, a served
repository list, and a 404 repos endpoint. -/
theorem c5_repository_selection_witness :
    getRepository "octocat" optsRepo trivWorld = (some "pinned", []) ∧
    getRepository "octocat" optsU repoWorld =
      (some "first-repo", [ApiCall.repos "octocat"]) ∧
    (getRecentCommitsEmails "octocat" optsU trivWorld).1 = [] := by
  refine ⟨(c5_repository_selection "octocat" optsRepo trivWorld).1 "pinned"
    rfl (by decide), ?_, ?_⟩
  · exact (c5_repository_selection "octocat" optsU repoWorld).2.1
      (by decide) (by decide) ⟨some "first-repo"⟩ [] rfl
  · exact (c5_repository_selection "octocat" optsU trivWorld).2.2
      (by decide) (Or.inl rfl)

/-- C6: with no auth token the profile-email lookup returns `null`
without any network request; with a (truthy) token, a 404 yields `null`
and a success yields the body's email exactly when it is present and
non-empty, `null` otherwise. -/
theorem c6_profile_email (username : String) (opts : GitHubEmailOpts)
    (w : World) :
    (jsTruthy opts.token = false →
      getGitHubEmail username opts w = (none, [])) ∧
    (∀ t : String, opts.token = some t → t ≠ "" →
      ((w.userByName username).status = 404 →
        (getGitHubEmail username opts w).1 = none) ∧
      ((w.userByName username).status ≠ 404 →
        (∀ e : String, (w.userByName username).email = some e → e ≠ "" →
          (getGitHubEmail username opts w).1 = some e) ∧
        (((w.userByName username).email = none ∨
            (w.userByName username).email = some "") →
          (getGitHubEmail username opts w).1 = none))) := by
  constructor
  · intro hf
    simp [getGitHubEmail, hf]
  · intro t ht hne
    have htr : jsTruthy opts.token = true := by
      rw [ht]
      simp [jsTruthy, hne]
    refine ⟨?_, ?_⟩
    · intro h404
      simp [getGitHubEmail, htr, h404]
    · intro h404
      refine ⟨?_, ?_⟩
      · intro e he hene
        simp [getGitHubEmail, htr, h404, he, jsOrNull, hene]
      · intro hdeg
        rcases hdeg with he | he <;>
          simp [getGitHubEmail, htr, h404, he, jsOrNull]

/-- A concrete network whose profile endpoint serves an email. -/
def emailWorld : World :=
  ⟨fun _ => ⟨200, some "octocat"⟩, fun _ => ⟨200, some "me@example.com"⟩,
    fun _ => ⟨404, none⟩, fun _ => ⟨404, []⟩, fun _ => ⟨404, none⟩,
    fun _ _ => ⟨404, none⟩⟩

/-- Username-carrying options with a token. -/
def optsTok : GitHubEmailOpts :=
  ⟨UserRef.byUsername "octocat", some "tok", none⟩

/-- C6 witness: instantiations at a token-less request, a 404 profile
endpoint, and a served profile email. -/
theorem c6_profile_email_witness :
    getGitHubEmail "octocat" optsU emailWorld = (none, []) ∧
    (getGitHubEmail "octocat" optsTok trivWorld).1 = none ∧
    (getGitHubEmail "octocat" optsTok emailWorld).1 =
      some "me@example.com" := by
  refine ⟨(c6_profile_email "octocat" optsU emailWorld).1 (by decide), ?_, ?_⟩
  · exact ((c6_profile_email "octocat" optsTok trivWorld).2 "tok" rfl
      (by decide)).1 rfl
  · exact (((c6_profile_email "octocat" optsTok emailWorld).2 "tok" rfl
      (by decide)).2 (by decide)).1 "me@example.com" rfl (by decide)

/-- Conformance of the network to the profile-by-id collaborator
interface of the spec: a non-404 response carries a real (non-empty)
`login`. -/
def WorldHasLogins (w : World) : Prop :=
  ∀ i : Int, (w.userById i).status ≠ 404 →
    ∃ s : String, (w.userById i).login = some s ∧ s ≠ ""

/-- Well-formedness of a request: a directly supplied username is a
real (non-empty) username. -/
def WellFormedOpts (opts : GitHubEmailOpts) : Prop :=
  ∀ u : String, opts.user = UserRef.byUsername u → u ≠ ""

/-- C4: over conforming networks and well-formed requests, the overall
call fails (with the user-not-found error and no partial result) exactly
when an id-based request hits a 404 on the profile-by-id endpoint; in
every other case it returns the complete result record whose four fields
are the values of the four independent sub-lookups (each of which is a
total function into null/empty-defaulting values, so no sub-lookup can
fail the call). -/
theorem c4_fails_iff_username_unresolved (opts : GitHubEmailOpts)
    (w : World) (hw : WorldHasLogins w) (ho : WellFormedOpts opts) :
    ((githubEmail opts w).1 = Except.error GithubEmailError.userNotFound ↔
      ∃ i : Int, opts.user = UserRef.byId i ∧
        (w.userById i).status = 404) ∧
    ((¬ ∃ i : Int, opts.user = UserRef.byId i ∧
        (w.userById i).status = 404) →
      ∃ u : String, (getUsername opts w).1 = some u ∧
        (githubEmail opts w).1 = Except.ok
          ⟨(getGitHubEmail u opts w).1, (getNpmEmail u w).1,
            (getRecentCommitsEmails u opts w).1,
            (getRecentActivityEmails u opts w).1⟩) := by
  cases hu : opts.user with
  | byUsername u =>
    have hne : u ≠ "" := ho u hu
    have hres : (githubEmail opts w).1 = Except.ok
        ⟨(getGitHubEmail u opts w).1, (getNpmEmail u w).1,
          (getRecentCommitsEmails u opts w).1,
          (getRecentActivityEmails u opts w).1⟩ := by
      simp [githubEmail, getUsername, hu, hne]
    constructor
    · rw [hres]
      constructor
      · intro hc
        cases hc
      · rintro ⟨i, hi, _⟩
        exact UserRef.noConfusion hi
    · intro hnot
      exact ⟨u, by simp [getUsername, hu], hres⟩
  | byId i =>
    by_cases h404 : (w.userById i).status = 404
    · have herr : (githubEmail opts w).1 =
          Except.error GithubEmailError.userNotFound := by
        simp [githubEmail, getUsername, hu, h404]
      constructor
      · rw [herr]
        exact ⟨fun _ => ⟨i, rfl, h404⟩, fun _ => rfl⟩
      · intro hnot
        exact absurd ⟨i, rfl, h404⟩ hnot
    · obtain ⟨s, hlog, hsne⟩ := hw i h404
      have hres : (githubEmail opts w).1 = Except.ok
          ⟨(getGitHubEmail s opts w).1, (getNpmEmail s w).1,
            (getRecentCommitsEmails s opts w).1,
            (getRecentActivityEmails s opts w).1⟩ := by
        simp [githubEmail, getUsername, hu, h404, hlog, hsne]
      constructor
      · rw [hres]
        constructor
        · intro hc
          cases hc
        · rintro ⟨i2, hi2, h4042⟩
          injection hi2 with hii
          rw [← hii] at h4042
          exact absurd h4042 h404
      · intro hnot
        exact ⟨s, by simp [getUsername, hu, h404, hlog], hres⟩

/-- C4 witness: instantiation at a concrete username request over the
conforming trivial network. -/
theorem c4_fails_iff_username_unresolved_witness :
    WorldHasLogins trivWorld ∧ WellFormedOpts optsU ∧
    (((githubEmail optsU trivWorld).1 =
        Except.error GithubEmailError.userNotFound ↔
      ∃ i : Int, optsU.user = UserRef.byId i ∧
        (trivWorld.userById i).status = 404) ∧
    ((¬ ∃ i : Int, optsU.user = UserRef.byId i ∧
        (trivWorld.userById i).status = 404) →
      ∃ u : String, (getUsername optsU trivWorld).1 = some u ∧
        (githubEmail optsU trivWorld).1 = Except.ok
          ⟨(getGitHubEmail u optsU trivWorld).1, (getNpmEmail u trivWorld).1,
            (getRecentCommitsEmails u optsU trivWorld).1,
            (getRecentActivityEmails u optsU trivWorld).1⟩)) := by
  have hw : WorldHasLogins trivWorld := by
    intro i hi
    exact ⟨"octocat", rfl, by decide⟩
  have ho : WellFormedOpts optsU := by
    intro u hu
    have : UserRef.byUsername "octocat" = UserRef.byUsername u := hu
    injection this with h2
    rw [← h2]
    decide
  exact ⟨hw, ho, c4_fails_iff_username_unresolved optsU trivWorld hw ho⟩

/-- C1: commit-history aggregation deduplicates identities by display
name with the first occurrence winning: over the considered identities
(commits in newest-first payload order, author before committer, only
present non-empty names admitted), the map built by the reduce is
exactly keep-the-first-record-of-every-name, so the record kept for a
name — its email included — is the one from the earliest occurrence. -/
theorem c1_dedup_first_occurrence_wins (l : List CommitJson) :
    commitsEmailsMap l = firstByName (validRecs l) ∧
    ∀ r ∈ commitsEmailsMap l,
      (validRecs l).find? (fun q => decide (q.name = r.name)) = some r := by
  refine ⟨commitsEmailsMap_eq l, ?_⟩
  intro r hr
  rw [commitsEmailsMap_eq l] at hr
  exact find?_firstByName hr

/-- A concrete commits payload: newest commit authored by A with email
a1, older commit authored by A with email a2. -/
def c1Input : List CommitJson :=
  [⟨some ⟨some ⟨some "A", some "a1", some 200⟩, none⟩⟩,
    ⟨some ⟨some ⟨some "A", some "a2", some 100⟩, none⟩⟩]

/-- C1 witness: instantiation at the spec's own two-commit example; the
kept record for name A is the newest-first occurrence with email a1. -/
theorem c1_dedup_first_occurrence_wins_witness :
    (⟨"A", some "a1", some 200⟩ : IdentRec) ∈ commitsEmailsMap c1Input ∧
    (validRecs c1Input).find?
        (fun q => decide (q.name =
          (⟨"A", some "a1", some 200⟩ : IdentRec).name)) =
      some ⟨"A", some "a1", some 200⟩ :=
  ⟨by decide,
    (c1_dedup_first_occurrence_wins c1Input).2 ⟨"A", some "a1", some 200⟩
      (by decide)⟩

/-- A commits payload whose identities carry the dates 5, missing and 9
in insertion order: the comparator reports every comparison against the
invalid date as not-smaller, so the engine sort sees one ascending run
and returns the array unchanged, which is not date-descending. -/
def c2Input : List CommitJson :=
  [⟨some ⟨some ⟨some "A", none, some 5⟩, none⟩⟩,
    ⟨some ⟨some ⟨some "B", none, none⟩, none⟩⟩,
    ⟨some ⟨some ⟨some "C", none, some 9⟩, none⟩⟩]

/-- C2 counterexample: the post-dedup output is not always sorted by
timestamp in descending order — a surviving identity with a missing
(unparseable) date shields the comparisons, and the entry with date 9
stays after the entry with date 5. -/
theorem c2_descending_counterexample :
    sortV8 (commitsEmailsMap c2Input) =
      [⟨"A", none, some 5⟩, ⟨"B", none, none⟩, ⟨"C", none, some 9⟩] ∧
    ¬ (sortV8 (commitsEmailsMap c2Input)).Pairwise RDesc := by
  have he : sortV8 (commitsEmailsMap c2Input) =
      [⟨"A", none, some 5⟩, ⟨"B", none, none⟩, ⟨"C", none, some 9⟩] := by
    decide
  refine ⟨he, fun h => ?_⟩
  rw [he] at h
  rcases h with _ | ⟨h1, _⟩
  have hac := h1 ⟨"C", none, some 9⟩ (by simp)
  simp [RDesc, dateGt] at hac

/-- C2 (amended): when every surviving identity carries a valid
timestamp — as in every well-formed commits response — the output is
sorted by timestamp in descending order, identities with equal
timestamps keep their insertion (first-occurrence) order, and the
timestamp is then stripped so the output is the ordered list of
name/email pairs.  The length bound keeps the statement inside the
regime where `sortV8` is the engine's algorithm (no TimSort merges
below 64 elements; a 30-commit page yields at most 60 identities). -/
theorem c2_sorted_descending_of_valid_dates (l : List CommitJson)
    (hval : ∀ r ∈ commitsEmailsMap l, r.date.isSome = true)
    (hlen : (commitsEmailsMap l).length < 64) :
    recentCommitsPure l = (sortV8 (commitsEmailsMap l)).map stripDate ∧
    (sortV8 (commitsEmailsMap l)).Pairwise RDesc ∧
    ∀ t : Int,
      (sortV8 (commitsEmailsMap l)).filter
          (fun r => decide (r.date = some t)) =
        (commitsEmailsMap l).filter (fun r => decide (r.date = some t)) :=
  ⟨rfl, sortV8_pairwise_of_valid _ hval,
    fun t => sortV8_filter_of_valid _ hval t⟩

/-- A commits payload with three distinct authors dated 200, 100 and
150. -/
def c2GoodInput : List CommitJson :=
  [⟨some ⟨some ⟨some "A", some "a@x", some 200⟩, none⟩⟩,
    ⟨some ⟨some ⟨some "B", some "b@x", some 100⟩, none⟩⟩,
    ⟨some ⟨some ⟨some "C", some "c@x", some 150⟩, none⟩⟩]

/-- C2 amended-claim witness: instantiation at an all-valid-dates
payload, on which the sort yields the descending order 200, 150, 100. -/
theorem c2_sorted_descending_of_valid_dates_witness :
    (∀ r ∈ commitsEmailsMap c2GoodInput, r.date.isSome = true) ∧
    (commitsEmailsMap c2GoodInput).length < 64 ∧
    (recentCommitsPure c2GoodInput =
        (sortV8 (commitsEmailsMap c2GoodInput)).map stripDate ∧
      (sortV8 (commitsEmailsMap c2GoodInput)).Pairwise RDesc ∧
      ∀ t : Int,
        (sortV8 (commitsEmailsMap c2GoodInput)).filter
            (fun r => decide (r.date = some t)) =
          (commitsEmailsMap c2GoodInput).filter
            (fun r => decide (r.date = some t))) := by
  have h1 : ∀ r ∈ commitsEmailsMap c2GoodInput, r.date.isSome = true := by
    decide
  have h2 : (commitsEmailsMap c2GoodInput).length < 64 := by decide
  exact ⟨h1, h2, c2_sorted_descending_of_valid_dates c2GoodInput h1 h2⟩

/-- C3: the exec loop over the events payload returns exactly the
sequence of all values standing under a literal email key in the raw
text, in payload order with duplicates preserved — in particular the
empty sequence on zero matches and a single value on one match — and
the wrapped lookup applies this scan to every non-404 response. -/
theorem c3_event_scan_returns_all_matches :
    (∀ s : List Char, recentActivityScan s = allEmailMatches s) ∧
    (∀ (username : String) (opts : GitHubEmailOpts) (w : World),
      (getRecentActivityEmails username opts w).1 =
        if (w.events username).status = 404 then []
        else allEmailMatches (w.events username).text) := by
  refine ⟨recentActivityScan_eq, ?_⟩
  intro username opts w
  by_cases h4 : (w.events username).status = 404
  · simp [getRecentActivityEmails, h4]
  · simp [getRecentActivityEmails, h4, recentActivityScan_eq]

theorem recentCommitsPure_mem_spec {r : NameEmail} {json : List CommitJson}
    (hr : r ∈ recentCommitsPure json) :
    ∃ s : IdentRec, s.name = r.name ∧ s.email = r.email ∧
      s ∈ firstByName (validRecs json) ∧
      ∃ gi ∈ flatIdents json, validRec gi = some s := by
  rw [recentCommitsPure] at hr
  obtain ⟨s, hs, hstrip⟩ := List.mem_map.mp hr
  rw [mem_sortV8, commitsEmailsMap_eq] at hs
  obtain ⟨gi, hgi, hvr⟩ := mem_validRecs (mem_firstByName hs)
  subst hstrip
  exact ⟨s, rfl, rfl, hs, gi, hgi, hvr⟩

/-- C8: the aggregation is hardened against malformed commit entries:
every produced entry carries a non-empty name traced to an actual
author/committer of the payload together with that identity's (possibly
absent) email — missing subfields are defaulted, never invented — and a
commit whose `commit` object, author and committer are missing is
skipped entirely, so the aggregation always returns a value. -/
theorem c8_malformed_entries_skipped_or_defaulted (json : List CommitJson) :
    (∀ r ∈ recentCommitsPure json, r.name ≠ "" ∧
      ∃ gi ∈ flatIdents json, gi.name = some r.name ∧ gi.email = r.email) ∧
    (∀ (acc : List IdentRec) (cj : CommitJson), cj.commit = none →
      stepCommit acc cj = acc) ∧
    (∀ (acc : List IdentRec) (cj : CommitJson) (inner : CommitInner),
      cj.commit = some inner → inner.author = none →
      inner.committer = none → stepCommit acc cj = acc) := by
  refine ⟨?_, ?_, ?_⟩
  · intro r hr
    obtain ⟨s, hname, hemail, hfb, gi, hgi, hvr⟩ :=
      recentCommitsPure_mem_spec hr
    obtain ⟨hn, he, hd, hne⟩ := validRec_some hvr
    rw [hname] at hn hne
    rw [hemail] at he
    exact ⟨hne, gi, hgi, hn, he⟩
  · intro acc cj hc
    simp [stepCommit, considerIdent, authorIdent, committerIdent, hc,
      emptyInner, emptyIdent]
  · intro acc cj inner hc ha hcm
    simp [stepCommit, considerIdent, authorIdent, committerIdent, hc, ha,
      hcm, emptyIdent]

/-- A commits payload with one entry missing its `commit` object
entirely and one entry whose author has no email and no date and whose
committer is missing. -/
def c8Input : List CommitJson :=
  [⟨none⟩, ⟨some ⟨some ⟨some "A", some "a@x", none⟩, none⟩⟩]

/-- C8 witness: instantiation at a malformed payload. -/
theorem c8_malformed_entries_skipped_or_defaulted_witness :
    ((⟨"A", some "a@x"⟩ : NameEmail) ∈ recentCommitsPure c8Input ∧
      ("A" : String) ≠ "" ∧
      ∃ gi ∈ flatIdents c8Input,
        gi.name = some "A" ∧ gi.email = some "a@x") ∧
    stepCommit [] ⟨none⟩ = [] ∧
    stepCommit [] ⟨some ⟨none, none⟩⟩ = [] := by
  refine ⟨⟨by decide, ?_⟩, ?_, ?_⟩
  · exact (c8_malformed_entries_skipped_or_defaulted c8Input).1
      ⟨"A", some "a@x"⟩ (by decide)
  · exact (c8_malformed_entries_skipped_or_defaulted c8Input).2.1
      [] ⟨none⟩ rfl
  · exact (c8_malformed_entries_skipped_or_defaulted c8Input).2.2
      [] ⟨some ⟨none, none⟩⟩ ⟨none, none⟩ rfl rfl rfl

/-- A commits payload whose only considered identity has a name but no
email. -/
def c9Input : List CommitJson :=
  [⟨some ⟨some ⟨some "A", none, none⟩, none⟩⟩]

/-- C9 counterexample: the aggregation output is not always made of
entries with a present, string-valued email — a commit whose author has
a name but no email produces the entry with name A and an absent email
field. -/
theorem c9_string_email_counterexample :
    (⟨"A", none⟩ : NameEmail) ∈ recentCommitsPure c9Input ∧
    ¬ ∀ (json : List CommitJson), ∀ r ∈ recentCommitsPure json,
        r.email.isSome = true := by
  refine ⟨by decide, fun h => ?_⟩
  have h2 := h c9Input ⟨"A", none⟩ (by decide)
  simp at h2

/-- C9 (amended): every output entry has a present, non-empty string
name, and its email field is exactly the (possibly absent) email of the
first considered identity bearing that name; whenever every considered
identity with an admissible name carries a string email — as in every
well-formed commits response — every output entry has a present,
string-valued email. -/
theorem c9_email_is_first_occurrence_email (json : List CommitJson) :
    (∀ r ∈ recentCommitsPure json, r.name ≠ "" ∧
      ((validRecs json).find?
          (fun q => decide (q.name = r.name))).map IdentRec.email =
        some r.email) ∧
    ((∀ gi ∈ flatIdents json, validRec gi ≠ none → gi.email.isSome = true) →
      ∀ r ∈ recentCommitsPure json, r.email.isSome = true) := by
  constructor
  · intro r hr
    obtain ⟨s, hname, hemail, hfb, gi, hgi, hvr⟩ :=
      recentCommitsPure_mem_spec hr
    obtain ⟨hn, he, hd, hne⟩ := validRec_some hvr
    have hfind := find?_firstByName hfb
    rw [hname] at hfind hne
    refine ⟨hne, ?_⟩
    rw [hfind]
    simp [hemail]
  · intro hall r hr
    obtain ⟨s, hname, hemail, hfb, gi, hgi, hvr⟩ :=
      recentCommitsPure_mem_spec hr
    obtain ⟨hn, he, hd, hne⟩ := validRec_some hvr
    have hgood := hall gi hgi (by rw [hvr]; simp)
    rw [he, hemail] at hgood
    exact hgood

/-- A commits payload whose single identity is fully formed. -/
def c9GoodInput : List CommitJson :=
  [⟨some ⟨some ⟨some "A", some "a@x", some 1⟩, none⟩⟩]

/-- C9 amended-claim witness: instantiation at a fully-formed payload. -/
theorem c9_email_is_first_occurrence_email_witness :
    ((⟨"A", some "a@x"⟩ : NameEmail) ∈ recentCommitsPure c9GoodInput ∧
      ("A" : String) ≠ "" ∧
      ((validRecs c9GoodInput).find?
          (fun q => decide (q.name = "A"))).map IdentRec.email =
        some (some "a@x")) ∧
    (some "a@x" : Option String).isSome = true := by
  refine ⟨⟨by decide, ?_⟩, ?_⟩
  · exact (c9_email_is_first_occurrence_email c9GoodInput).1
      ⟨"A", some "a@x"⟩ (by decide)
  · exact (c9_email_is_first_occurrence_email c9GoodInput).2
      (by decide) ⟨"A", some "a@x"⟩ (by decide)
